import Mathlib

/-!
# Game centre prototype: catalog filter, rails, detail view and selection

A shallow embedding of the decision logic of
`src/game_center_web_app_single_file_react_prototype.jsx`:

* the `filtered` memo of `GameCenterApp` (lines 117-123),
* the three rail expressions handed to `FeaturedRail` (lines 142-150),
* `isDesktop` (line 93) and the branch of `GameDrawer` (lines 335-380),
* the `active` state with its two writers `setActive` and `onOpenChange`
  (lines 114, 143-158, 164).

JavaScript strings are modelled as well-formed sequences of Unicode code
points (Lean `String`, i.e. `List Char`); the built-in string methods the
filter calls are written out after ECMA-262.  The per-code-point tables of
the Unicode Character Database that `toLowerCase` consults are not part of
the repository and are taken as a parameter (`UnicodeCaseData`).
-/

namespace GameCenter

/-! ## Data model -/

/-- One element of the `GAMES` array.  `rating` is a decimal with one
fractional digit in the source and is kept in tenths (`4.7` is `47`); no
modelled operation reads it.  `plays` is an integer-valued JavaScript
number. -/
structure GameRecord where
  id : String
  title : String
  category : String
  rating : Nat
  plays : Int
  difficulty : String
  badges : List String
  description : String
deriving DecidableEq, Repr

/-- The `CATEGORIES` array (lines 14-22) as (key, label) pairs. -/
def CATEGORIES : List (String × String) :=
  [("all", "All"), ("arcade", "Arcade"), ("puzzle", "Puzzle"), ("strategy", "Strategy"),
   ("racing", "Racing"), ("sports", "Sports"), ("retro", "Retro")]

/-- The record `g1` of `GAMES`. -/
def g1 : GameRecord :=
  { id := "g1", title := "Neon Runner", category := "racing", rating := 47,
    plays := 12840, difficulty := "Easy", badges := ["New", "Hot"],
    description := "Dash through cyber-streets, drift neon corners, and chase milliseconds in a skill-first time-attack racer." }

/-- The record `g2` of `GAMES`. -/
def g2 : GameRecord :=
  { id := "g2", title := "Quantum Blocks", category := "puzzle", rating := 45,
    plays := 9021, difficulty := "Medium", badges := ["Editor Pick"],
    description := "A mind-bending grid puzzler where blocks entangle, collapse, and cascade. Think ahead or blink and lose." }

/-- The record `g3` of `GAMES`. -/
def g3 : GameRecord :=
  { id := "g3", title := "Starforge Tactics", category := "strategy", rating := 48,
    plays := 23105, difficulty := "Hard", badges := ["Ranked"],
    description := "Build, conquer, and outwit across a glittering sector. Multiplayer ladders, seasons, and replays." }

/-- The record `g4` of `GAMES`. -/
def g4 : GameRecord :=
  { id := "g4", title := "Street Striker 2D", category := "arcade", rating := 42,
    plays := 5012, difficulty := "Easy", badges := ["Retro"],
    description := "Pick-up-and-play brawler with crunchy hits, pixel art swagger, and couch co-op." }

/-- The record `g5` of `GAMES`. -/
def g5 : GameRecord :=
  { id := "g5", title := "Goalverse '25", category := "sports", rating := 41,
    plays := 7633, difficulty := "Medium", badges := ["Seasonal"],
    description := "Arcade football distilled: fast matches, skill shots, and squad chemistry." }

/-- The record `g6` of `GAMES`. -/
def g6 : GameRecord :=
  { id := "g6", title := "Retro Rocket", category := "retro", rating := 49,
    plays := 11002, difficulty := "Hard", badges := ["8‑bit"],
    description := "Vertical shmup love letter. Tight hitboxes, perfect patterns, pure flow." }

/-- The `GAMES` array (lines 24-91). -/
def GAMES : List GameRecord := [g1, g2, g3, g4, g5, g6]

/-! ## String built-ins (ECMA-262) -/

/-- Code points that `String.prototype.trim` strips: the WhiteSpace
production (TAB, VT, FF, ZWNBSP and every code point of category Zs)
together with the LineTerminator production (LF, CR, LS, PS). -/
def isWhiteSpace (c : Char) : Bool :=
  [0x09, 0x0A, 0x0B, 0x0C, 0x0D, 0x20, 0xA0, 0x1680,
   0x2000, 0x2001, 0x2002, 0x2003, 0x2004, 0x2005, 0x2006, 0x2007, 0x2008, 0x2009, 0x200A,
   0x2028, 0x2029, 0x202F, 0x205F, 0x3000, 0xFEFF].contains c.toNat

/-- The code points of a string with leading and trailing white space
removed (`TrimString` with `where = start+end`). -/
def trimChars (cs : List Char) : List Char :=
  ((cs.dropWhile isWhiteSpace).reverse.dropWhile isWhiteSpace).reverse

/-- The method `String.prototype.trim`. -/
def trim (s : String) : String := ⟨trimChars s.data⟩

/-- The per-code-point data of the Unicode Character Database that
`String.prototype.toLowerCase` reads: the unconditional lowercase mapping of
a code point (UnicodeData.txt and the unconditional entries of
SpecialCasing.txt; it may be several code points long) and the two derived
properties `Cased` and `Case_Ignorable` that the `Final_Sigma` condition
tests. -/
structure UnicodeCaseData where
  lower : Char → List Char
  cased : Char → Bool
  caseIgnorable : Char → Bool

/-- GREEK CAPITAL LETTER SIGMA, U+03A3. -/
def capitalSigma : Char := Char.ofNat 0x03A3

/-- GREEK SMALL LETTER SIGMA, U+03C3. -/
def smallSigma : Char := Char.ofNat 0x03C3

/-- GREEK SMALL LETTER FINAL SIGMA, U+03C2. -/
def smallFinalSigma : Char := Char.ofNat 0x03C2

/-- Reading outwards from a position, the code points form zero or more
case-ignorable code points and then a cased one.  Used in both directions
by `Final_Sigma` (the list before the position is passed nearest first). -/
def reachesCased (U : UnicodeCaseData) : List Char → Bool
  | [] => false
  | c :: cs => U.cased c || (U.caseIgnorable c && reachesCased U cs)

/-- The condition `Final_Sigma` of SpecialCasing.txt: the sigma is preceded
by a cased letter (case-ignorable code points in between allowed) and is not
followed by one.  `before` lists the preceding code points nearest first. -/
def isFinalSigma (U : UnicodeCaseData) (before after : List Char) : Bool :=
  reachesCased U before && !reachesCased U after

/-- Lowercase the code points `cs` that follow `before` (nearest first):
every code point is replaced by its unconditional mapping, except a capital
sigma in final position, which becomes the final small sigma. -/
def lowerFrom (U : UnicodeCaseData) : List Char → List Char → List Char
  | _, [] => []
  | before, c :: rest =>
    (if c = capitalSigma ∧ isFinalSigma U before rest = true then [smallFinalSigma]
     else U.lower c) ++ lowerFrom U (c :: before) rest

/-- The method `String.prototype.toLowerCase`: the locale-insensitive
Unicode default case conversion, context-sensitive `Final_Sigma` rule
included. -/
def toLowerCase (U : UnicodeCaseData) (s : String) : String := ⟨lowerFrom U [] s.data⟩

/-- Some position of `s` starts an occurrence of `q`. -/
def includesChars (s q : List Char) : Bool := s.tails.any fun t => q.isPrefixOf t

/-- The method `String.prototype.includes` with the default position 0. -/
def includes (s q : String) : Bool := includesChars s.data q.data

/-! ## The filter -/

/-- The `filtered` memo of `GameCenterApp` (lines 117-123), with the module
constant `GAMES` abstracted as `catalog`.  `!q` holds exactly for the empty
string. -/
def filtered (U : UnicodeCaseData) (catalog : List GameRecord) (query category : String) :
    List GameRecord :=
  let q := toLowerCase U (trim query)
  catalog.filter fun g =>
    (category == "all" || g.category == category) &&
    (q.data.isEmpty || includes (toLowerCase U g.title) q)

/-- The entries of the Unicode tables for Basic Latin and the Greek capital
sigma; every other code point is left alone.  It agrees with the Unicode
Character Database on strings made of Basic Latin code points and sigmas
and is used to evaluate examples on such strings only. -/
def basicLatinCase : UnicodeCaseData where
  lower c :=
    if 0x41 ≤ c.toNat ∧ c.toNat ≤ 0x5A then [Char.ofNat (c.toNat + 32)]
    else if c = capitalSigma then [smallSigma]
    else [c]
  cased c :=
    (0x41 ≤ c.toNat && c.toNat ≤ 0x5A) || (0x61 ≤ c.toNat && c.toNat ≤ 0x7A) ||
    c == capitalSigma || c == smallSigma || c == smallFinalSigma
  caseIgnorable c := [0x27, 0x2E, 0x3A, 0x5E, 0x60].contains c.toNat

/-! ## Array built-ins and the rails -/

/-- The method `Array.prototype.slice(start, end)` for non-negative integer
arguments: the elements at the indices `start ≤ i < min end length`. -/
def slice {α : Type} (xs : List α) (start stop : Nat) : List α := (xs.take stop).drop start

/-- Insert `x` in front of the first element it does not have to follow
(`comparefn x y ≤ 0`). -/
def sortedInsert {α : Type} (comparefn : α → α → Int) (x : α) : List α → List α
  | [] => [x]
  | y :: ys => if comparefn x y ≤ 0 then x :: y :: ys else y :: sortedInsert comparefn x ys

/-- The method `Array.prototype.sort(comparefn)` applied to a copy.  ECMA-262
(2019 and later) leaves the algorithm to the engine but requires it to be
stable; the stable insertion sort is taken here (it is also what V8 runs on
arrays this short).  An element is placed before the elements to its right
that it compares `≤ 0` against, so equal elements keep their order. -/
def sort {α : Type} (comparefn : α → α → Int) : List α → List α
  | [] => []
  | x :: xs => sortedInsert comparefn x (sort comparefn xs)

/-- The comparator `(a,b)=>b.plays-a.plays` of the trending rail (line 146). -/
def byPlaysDesc (a b : GameRecord) : Int := b.plays - a.plays

/-- The list handed to the featured rail: `filtered.slice(0,4)` (line 143). -/
def featuredRail (filtered : List GameRecord) : List GameRecord := slice filtered 0 4

/-- The list handed to the trending rail:
`[...filtered].sort((a,b)=>b.plays-a.plays).slice(0,4)` (line 146). -/
def trendingRail (filtered : List GameRecord) : List GameRecord :=
  slice (sort byPlaysDesc filtered) 0 4

/-- The list handed to the new rail: `[...filtered].reverse().slice(0,4)`
(line 149). -/
def newRail (filtered : List GameRecord) : List GameRecord := slice filtered.reverse 0 4

/-! ## Viewport and detail view -/

/-- The part of the global `window` object that is read. -/
structure Window where
  innerWidth : Int
deriving DecidableEq, Repr

/-- The function `isDesktop` (line 93); `none` stands for
`typeof window === "undefined"`. -/
def isDesktop (window : Option Window) : Bool :=
  match window with
  | none => false
  | some w => decide (w.innerWidth ≥ 1024)

/-- What `GameDrawer` renders: the `Dialog` (modal) or the `Drawer` (bottom
sheet), each showing one game. -/
inductive DetailView where
  | dialog (game : GameRecord)
  | drawer (game : GameRecord)
deriving DecidableEq, Repr

/-- The component `GameDrawer` (lines 335-380): nothing for a null game,
otherwise the dialog on a desktop and the drawer elsewhere. -/
def GameDrawer (window : Option Window) (game : Option GameRecord) : Option DetailView :=
  let desktop := isDesktop window
  match game with
  | none => none
  | some g => if desktop then some (DetailView.dialog g) else some (DetailView.drawer g)

/-! ## Selection -/

/-- The `active` state of `GameCenterApp` (line 114): a game or `null`. -/
abbrev Selection := Option GameRecord

/-- The initial value `useState(null)`. -/
def initialSelection : Selection := none

/-- The state writer `setActive`. -/
def setActive (value : Option GameRecord) (_active : Selection) : Selection := value

/-- The handler `(v)=>!v && setActive(null)` given to `GameDrawer` (line 164). -/
def onOpenChange (v : Bool) (active : Selection) : Selection :=
  if !v then setActive none active else active

/-- The two user events that write the selection: a click on a Play button
(`onOpen(g)`, lines 289 and 323) and the detail view asking to close
(`onOpenChange(false)`). -/
inductive SelectionEvent where
  | openGame (g : GameRecord)
  | close
deriving DecidableEq, Repr

/-- The state after one event. -/
def dispatch (active : Selection) : SelectionEvent → Selection
  | SelectionEvent.openGame g => setActive (some g) active
  | SelectionEvent.close => onOpenChange false active

/-- The state after a sequence of events, from the initial state. -/
def runEvents (events : List SelectionEvent) : Selection :=
  events.foldl dispatch initialSelection

/-- The selection read off the last event alone: closed after no event or
a close, the game of the event after an open. -/
def selectionOfLast : Option SelectionEvent → Selection
  | none => none
  | some SelectionEvent.close => none
  | some (SelectionEvent.openGame g) => some g

/-! ## Example data -/

/-- A one-record catalog whose title is LATIN CAPITAL A, GREEK CAPITAL SIGMA,
LATIN CAPITAL A. -/
def sigmaGame : GameRecord :=
  { id := "s1", title := ⟨['A', capitalSigma, 'A']⟩, category := "puzzle", rating := 40,
    plays := 1, difficulty := "Easy", badges := [], description := "" }

/-- The query LATIN CAPITAL A, GREEK CAPITAL SIGMA. -/
def sigmaQuery : String := ⟨['A', capitalSigma]⟩

/-- A list with one leader and a tie group of five: `g3` with its own plays,
and `g4`, `g2`, `g5`, `g6`, `g1` all given the plays of `g4`. -/
def tiedGames : List GameRecord :=
  [g4, { g2 with plays := 5012 }, g3, { g5 with plays := 5012 },
   { g6 with plays := 5012 }, { g1 with plays := 5012 }]

/-! ## Lemmas on the string built-ins -/

theorem includesChars_iff (s q : List Char) : includesChars s q = true ↔ q <:+: s := by
  unfold includesChars
  rw [List.any_eq_true, List.infix_iff_prefix_suffix]
  constructor
  · rintro ⟨t, ht, hq⟩
    exact ⟨t, List.isPrefixOf_iff_prefix.mp hq, (List.mem_tails t s).mp ht⟩
  · rintro ⟨t, hq, ht⟩
    exact ⟨t, (List.mem_tails t s).mpr ht, List.isPrefixOf_iff_prefix.mpr hq⟩

theorem trimChars_eq_nil_of_all (cs : List Char) (h : ∀ c ∈ cs, isWhiteSpace c = true) :
    trimChars cs = [] := by
  unfold trimChars
  rw [List.dropWhile_eq_nil_iff.mpr h]
  rfl

theorem lowerFrom_nil (U : UnicodeCaseData) (before : List Char) : lowerFrom U before [] = [] := by
  cases before <;> rfl

/-- Membership in the filtered list, with the `!q` shortcut folded into the
substring test (the empty string occurs in every string). -/
theorem mem_filtered (U : UnicodeCaseData) (catalog : List GameRecord) (query category : String)
    (g : GameRecord) :
    g ∈ filtered U catalog query category ↔
      g ∈ catalog ∧ (category = "all" ∨ g.category = category) ∧
        (toLowerCase U (trim query)).data <:+: (toLowerCase U g.title).data := by
  unfold filtered
  simp only [List.mem_filter, Bool.and_eq_true, Bool.or_eq_true, beq_iff_eq, includes,
    includesChars_iff, List.isEmpty_iff]
  constructor
  · rintro ⟨hg, hc, hq⟩
    refine ⟨hg, hc, ?_⟩
    rcases hq with hq | hq
    · rw [hq]; exact List.nil_infix
    · exact hq
  · rintro ⟨hg, hc, hq⟩
    exact ⟨hg, hc, Or.inr hq⟩

theorem trim_eq_empty_iff (query : String) : trim query = "" ↔ trimChars query.data = [] := by
  unfold trim
  constructor
  · intro h
    exact congrArg String.data h
  · intro h
    rw [h]

theorem toLowerCase_empty (U : UnicodeCaseData) : (toLowerCase U "").data = [] := rfl

/-- Trimming commutes with appending up to a prefix: what is appended to
the raw query only extends the trimmed query. -/
theorem trimChars_prefix_append (q s : List Char) : trimChars q <+: trimChars (q ++ s) := by
  unfold trimChars
  rw [List.dropWhile_append]
  split
  · rename_i h
    rw [List.isEmpty_iff] at h
    rw [h]
    exact List.nil_prefix
  · rw [List.reverse_append, List.dropWhile_append]
    split
    · exact List.prefix_refl _
    · rw [List.reverse_append, List.reverse_reverse]
      refine List.IsPrefix.trans ?_ (List.prefix_append _ _)
      rw [← List.reverse_suffix, List.reverse_reverse]
      exact List.dropWhile_suffix _

theorem trimChars_sublist (q : List Char) : List.Sublist (trimChars q) q := by
  unfold trimChars
  have h1 : List.Sublist
      (List.dropWhile isWhiteSpace (List.dropWhile isWhiteSpace q).reverse).reverse
      (List.dropWhile isWhiteSpace q) := by
    rw [← List.reverse_sublist, List.reverse_reverse]
    exact List.dropWhile_sublist _
  exact h1.trans (List.dropWhile_sublist _)

/-- On a stretch without a capital sigma the conversion is context-free. -/
theorem lowerFrom_append (U : UnicodeCaseData) (cs rest : List Char) (h : capitalSigma ∉ cs) :
    ∀ before, lowerFrom U before (cs ++ rest) =
      lowerFrom U before cs ++ lowerFrom U (cs.reverse ++ before) rest := by
  induction cs with
  | nil => intro before; simp [lowerFrom_nil]
  | cons c cs ih =>
    intro before
    have hc : c ≠ capitalSigma := fun e => h (e ▸ List.mem_cons_self _ _)
    have hcs : capitalSigma ∉ cs := fun e => h (List.mem_cons_of_mem _ e)
    rw [List.cons_append, lowerFrom, lowerFrom, ih hcs (c :: before)]
    simp [hc]

/-! ## Lemmas on the array built-ins -/

theorem slice_zero {α : Type} (xs : List α) (n : Nat) : slice xs 0 n = xs.take n := by
  simp [slice]

theorem sortedInsert_perm {α : Type} (comparefn : α → α → Int) (x : α) (l : List α) :
    (sortedInsert comparefn x l).Perm (x :: l) := by
  induction l with
  | nil => exact List.Perm.refl _
  | cons y ys ih =>
    unfold sortedInsert
    split
    · exact List.Perm.refl _
    · exact (List.Perm.cons y ih).trans (List.Perm.swap x y ys)

/-- Sorting rearranges: nothing is lost, duplicated or introduced. -/
theorem sort_perm {α : Type} (comparefn : α → α → Int) (l : List α) :
    (sort comparefn l).Perm l := by
  induction l with
  | nil => exact List.Perm.refl _
  | cons x xs ih =>
    unfold sort
    exact (sortedInsert_perm comparefn x _).trans (List.Perm.cons x ih)

theorem sortedInsert_byPlaysDesc_pairwise (x : GameRecord) (l : List GameRecord)
    (h : l.Pairwise fun a b => b.plays ≤ a.plays) :
    (sortedInsert byPlaysDesc x l).Pairwise fun a b => b.plays ≤ a.plays := by
  induction l with
  | nil => exact List.pairwise_singleton _ _
  | cons y ys ih =>
    rw [List.pairwise_cons] at h
    unfold sortedInsert
    split
    · rename_i hxy
      have hyx : y.plays ≤ x.plays := by
        unfold byPlaysDesc at hxy
        omega
      refine List.Pairwise.cons ?_ (List.Pairwise.cons h.1 h.2)
      intro z hz
      rcases List.mem_cons.mp hz with rfl | hz
      · exact hyx
      · exact le_trans (h.1 z hz) hyx
    · rename_i hxy
      have hyx : x.plays ≤ y.plays := by
        unfold byPlaysDesc at hxy
        omega
      refine List.Pairwise.cons ?_ (ih h.2)
      intro z hz
      rcases List.mem_cons.mp ((sortedInsert_perm byPlaysDesc x ys).mem_iff.mp hz) with rfl | hz
      · exact hyx
      · exact h.1 z hz

/-- The sorted copy is in descending order of `plays`. -/
theorem sort_byPlaysDesc_pairwise (l : List GameRecord) :
    (sort byPlaysDesc l).Pairwise fun a b => b.plays ≤ a.plays := by
  induction l with
  | nil => exact List.Pairwise.nil
  | cons x xs ih =>
    unfold sort
    exact sortedInsert_byPlaysDesc_pairwise x _ ih

theorem sortedInsert_byPlaysDesc_filter (p : Int) (x : GameRecord) (l : List GameRecord) :
    (sortedInsert byPlaysDesc x l).filter (fun g => decide (g.plays = p)) =
      (x :: l).filter (fun g => decide (g.plays = p)) := by
  induction l with
  | nil => rfl
  | cons y ys ih =>
    unfold sortedInsert
    split
    · rfl
    · rename_i hxy
      have hyx : x.plays < y.plays := by
        unfold byPlaysDesc at hxy
        omega
      rw [List.filter_cons, ih]
      by_cases hx : x.plays = p
      · have hy : ¬ y.plays = p := by omega
        simp [List.filter_cons, hx, hy]
      · simp [List.filter_cons, hx]

/-- Stability: the records of one `plays` value keep their order. -/
theorem sort_byPlaysDesc_filter (p : Int) (l : List GameRecord) :
    (sort byPlaysDesc l).filter (fun g => decide (g.plays = p)) =
      l.filter (fun g => decide (g.plays = p)) := by
  induction l with
  | nil => rfl
  | cons x xs ih =>
    unfold sort
    rw [sortedInsert_byPlaysDesc_filter, List.filter_cons, List.filter_cons, ih]

/-- Two lists in descending order of `plays` whose records of each `plays`
value agree, order included, are equal. -/
theorem eq_of_descending_of_filter_eq (L : List GameRecord) :
    ∀ M : List GameRecord,
      L.Pairwise (fun a b => b.plays ≤ a.plays) → M.Pairwise (fun a b => b.plays ≤ a.plays) →
      (∀ p : Int, L.filter (fun g => decide (g.plays = p)) =
        M.filter (fun g => decide (g.plays = p))) → L = M := by
  induction L with
  | nil =>
    intro M _ _ h
    cases M with
    | nil => rfl
    | cons y M =>
      have := h y.plays
      simp [List.filter_cons] at this
  | cons x L ih =>
    intro M hL hM h
    cases M with
    | nil =>
      have := h x.plays
      simp [List.filter_cons] at this
    | cons y M =>
      rw [List.pairwise_cons] at hL hM
      have hx : x ∈ y :: M := by
        have hm : x ∈ (x :: L).filter (fun g => decide (g.plays = x.plays)) := by
          simp [List.filter_cons]
        rw [h x.plays] at hm
        exact (List.mem_filter.mp hm).1
      have hy : y ∈ x :: L := by
        have hm : y ∈ (y :: M).filter (fun g => decide (g.plays = y.plays)) := by
          simp [List.filter_cons]
        rw [← h y.plays] at hm
        exact (List.mem_filter.mp hm).1
      have hxy : x.plays ≤ y.plays := by
        rcases List.mem_cons.mp hx with e | hm
        · rw [e]
        · exact hM.1 x hm
      have hyx : y.plays ≤ x.plays := by
        rcases List.mem_cons.mp hy with e | hm
        · rw [e]
        · exact hL.1 y hm
      have hp : y.plays = x.plays := le_antisymm hyx hxy
      have hhead := h x.plays
      simp only [List.filter_cons, hp, decide_True, if_true] at hhead
      have hxe : x = y := (List.cons.inj hhead).1
      subst hxe
      congr 1
      refine ih M hL.2 hM.2 ?_
      intro p
      have hq := h p
      by_cases hxp : x.plays = p
      · simp only [List.filter_cons, hxp, decide_True, if_true] at hq
        exact (List.cons.inj hq).2
      · simp only [List.filter_cons, hxp, decide_False] at hq
        exact hq

/-- The model of `sort` is no choice: every stable descending arrangement
of `F` by `plays` is the list `sort byPlaysDesc F`. -/
theorem sort_byPlaysDesc_unique (F L : List GameRecord)
    (hs : L.Pairwise (fun a b => b.plays ≤ a.plays))
    (hf : ∀ p : Int, L.filter (fun g => decide (g.plays = p)) =
      F.filter (fun g => decide (g.plays = p))) :
    L = sort byPlaysDesc F := by
  refine eq_of_descending_of_filter_eq L _ hs (sort_byPlaysDesc_pairwise F) ?_
  intro p
  rw [hf p, sort_byPlaysDesc_filter]

theorem filter_take_initial {α : Type} (f : α → Bool) (l : List α) (n : Nat) :
    (l.take n).filter f <+: l.filter f := by
  refine ⟨(l.drop n).filter f, ?_⟩
  rw [← List.filter_append, List.take_append_drop]

theorem pair_sublist_filter {α : Type} (f : α → Bool) (l : List α) (a b : α)
    (hab : List.Sublist [a, b] l) (ha : f a = true) (hb : f b = true) :
    List.Sublist [a, b] (l.filter f) := by
  have h := hab.filter f
  rw [List.filter_cons_of_pos ha, List.filter_cons_of_pos hb, List.filter_nil] at h
  exact h

theorem filtered_all_empty (U : UnicodeCaseData) (catalog : List GameRecord) :
    filtered U catalog "" "all" = catalog := by
  unfold filtered
  rw [List.filter_eq_self]
  intro g _
  rfl

theorem trendingRail_filter_initial (F : List GameRecord) (p : Int) :
    (trendingRail F).filter (fun g => decide (g.plays = p)) <+:
      F.filter (fun g => decide (g.plays = p)) := by
  unfold trendingRail
  rw [slice_zero, ← sort_byPlaysDesc_filter p F]
  exact filter_take_initial _ _ 4

/-! ## Lemmas on the selection -/

theorem runEvents_append_openGame (events : List SelectionEvent) (g : GameRecord) :
    runEvents (events ++ [SelectionEvent.openGame g]) = some g := by
  simp [runEvents, dispatch, setActive]

theorem runEvents_append_close (events : List SelectionEvent) :
    runEvents (events ++ [SelectionEvent.close]) = none := by
  simp [runEvents, dispatch, onOpenChange, setActive]

/-! ## The filter: inclusion rule, order, monotonicity -/

/-- C1. A record is in the filtered list exactly when it is in the catalog,
the category is "all" or equals the record's category, and the trimmed query
is empty or the lower-cased trimmed query occurs in the lower-cased title.
Only `title` and `category` of the record enter the rule, and a query made
of white space alone keeps every record of the category. -/
theorem filtered_inclusion_rule (U : UnicodeCaseData) (catalog : List GameRecord)
    (query category : String) (g : GameRecord) :
    (g ∈ filtered U catalog query category ↔
      g ∈ catalog ∧ (category = "all" ∨ g.category = category) ∧
        (trim query = "" ∨
          (toLowerCase U (trim query)).data <:+: (toLowerCase U g.title).data)) ∧
    ((∀ c ∈ query.data, isWhiteSpace c = true) →
      (g ∈ filtered U catalog query category ↔
        g ∈ catalog ∧ (category = "all" ∨ g.category = category))) := by
  have key : trim query = "" →
      (toLowerCase U (trim query)).data <:+: (toLowerCase U g.title).data := by
    intro h
    rw [h, toLowerCase_empty]
    exact List.nil_infix
  constructor
  · rw [mem_filtered]
    constructor
    · rintro ⟨hg, hc, hq⟩
      exact ⟨hg, hc, Or.inr hq⟩
    · rintro ⟨hg, hc, hq⟩
      exact ⟨hg, hc, hq.elim key id⟩
  · intro hws
    have ht : trim query = "" :=
      (trim_eq_empty_iff query).mpr (trimChars_eq_nil_of_all _ hws)
    rw [mem_filtered]
    constructor
    · rintro ⟨hg, hc, _⟩
      exact ⟨hg, hc⟩
    · rintro ⟨hg, hc⟩
      exact ⟨hg, hc, key ht⟩

/-- C1 at the sample catalog: the query of two blanks and a tab with
category "retro" keeps `g6`, by the white-space part of the rule. -/
theorem filtered_inclusion_rule_witness :
    (∀ c ∈ ("  \t" : String).data, isWhiteSpace c = true) ∧
      g6 ∈ filtered basicLatinCase GAMES "  \t" "retro" :=
  ⟨by decide,
   ((filtered_inclusion_rule basicLatinCase GAMES "  \t" "retro" g6).2 (by decide)).mpr
     ⟨by decide, Or.inr rfl⟩⟩

/-- C2. The filtered list is an order-preserving subsequence of the catalog:
it is a sublist, two records that pass the filter and stand in some order in
the catalog stand in that order in the result, and with category "all" and
the empty query the result is the catalog itself. -/
theorem filtered_order_preserving (U : UnicodeCaseData) (catalog : List GameRecord)
    (query category : String) :
    List.Sublist (filtered U catalog query category) catalog ∧
    (∀ a b : GameRecord, List.Sublist [a, b] catalog →
      a ∈ filtered U catalog query category → b ∈ filtered U catalog query category →
      List.Sublist [a, b] (filtered U catalog query category)) ∧
    filtered U catalog "" "all" = catalog := by
  refine ⟨List.filter_sublist _, ?_, ?_⟩
  · intro a b hab ha hb
    exact pair_sublist_filter _ catalog a b hab (List.mem_filter.mp ha).2
      (List.mem_filter.mp hb).2
  · exact filtered_all_empty U catalog

/-- C3 (as stated) fails on the one-record catalog titled "AΣA": the query
"AΣ" lower-cases to "aς" (final sigma), which does not occur in the
lower-cased title "aσa", so the record is filtered out; appending "A" gives
the query "AΣA", which lower-cases to "aσa", and the record comes back. -/
theorem filtered_not_antitone_at_sigma :
    filtered basicLatinCase [sigmaGame] sigmaQuery "all" = [] ∧
    filtered basicLatinCase [sigmaGame] (sigmaQuery ++ "A") "all" = [sigmaGame] ∧
    toLowerCase basicLatinCase (trim sigmaQuery) = ⟨['a', smallFinalSigma]⟩ ∧
    toLowerCase basicLatinCase (trim (sigmaQuery ++ "A")) = ⟨['a', smallSigma, 'a']⟩ ∧
    toLowerCase basicLatinCase sigmaGame.title = ⟨['a', smallSigma, 'a']⟩ := by
  decide

/-- C3 (amended). For a raw query without the Greek capital sigma, appending
characters never adds a record: every record of the filtered list for
`query ++ suffix` is in the filtered list for `query`. -/
theorem filtered_antitone_of_no_sigma (U : UnicodeCaseData) (catalog : List GameRecord)
    (query suffix category : String) (g : GameRecord)
    (hq : capitalSigma ∉ query.data)
    (hg : g ∈ filtered U catalog (query ++ suffix) category) :
    g ∈ filtered U catalog query category := by
  rw [mem_filtered] at hg ⊢
  obtain ⟨hcat, hc, hsub⟩ := hg
  refine ⟨hcat, hc, List.IsInfix.trans ?_ hsub⟩
  obtain ⟨rest, hrest⟩ := trimChars_prefix_append query.data suffix.data
  have hns : capitalSigma ∉ trimChars query.data :=
    fun h => hq ((trimChars_sublist query.data).subset h)
  unfold toLowerCase trim
  rw [String.data_append, ← hrest]
  show lowerFrom U [] (trimChars query.data) <:+:
    lowerFrom U [] (trimChars query.data ++ rest)
  rw [lowerFrom_append U _ rest hns]
  exact (List.prefix_append _ _).isInfix

/-- C3 (amended) at the sample catalog: "neon" keeps `g1`, hence so does
"ne". -/
theorem filtered_antitone_of_no_sigma_witness :
    capitalSigma ∉ ("ne" : String).data ∧
      g1 ∈ filtered basicLatinCase GAMES ("ne" ++ "on") "all" ∧
      g1 ∈ filtered basicLatinCase GAMES "ne" "all" :=
  ⟨by decide, by decide,
   filtered_antitone_of_no_sigma basicLatinCase GAMES "ne" "on" "all" g1 (by decide) (by decide)⟩

/-! ## The rails -/

/-- C4. Each of the three rails has `min |F| 4` records; when `F` has fewer
than 4 records the featured rail is `F`, the trending rail is a
rearrangement of `F` and the new rail is `F` reversed; the rails of the
empty list are empty. -/
theorem rail_length (F : List GameRecord) :
    (featuredRail F).length = min F.length 4 ∧
    (trendingRail F).length = min F.length 4 ∧
    (newRail F).length = min F.length 4 ∧
    (F.length < 4 →
      featuredRail F = F ∧ (trendingRail F).Perm F ∧ newRail F = F.reverse) ∧
    (featuredRail [] = [] ∧ trendingRail [] = [] ∧ newRail [] = []) := by
  have hs : (sort byPlaysDesc F).length = F.length := (sort_perm byPlaysDesc F).length_eq
  refine ⟨?_, ?_, ?_, ?_, rfl, rfl, rfl⟩
  · rw [featuredRail, slice_zero, List.length_take, Nat.min_comm]
  · rw [trendingRail, slice_zero, List.length_take, hs, Nat.min_comm]
  · rw [newRail, slice_zero, List.length_take, List.length_reverse, Nat.min_comm]
  · intro h
    refine ⟨?_, ?_, ?_⟩
    · rw [featuredRail, slice_zero]
      exact List.take_of_length_le (by omega)
    · rw [trendingRail, slice_zero, List.take_of_length_le (by omega)]
      exact sort_perm byPlaysDesc F
    · rw [newRail, slice_zero]
      exact List.take_of_length_le (by rw [List.length_reverse]; omega)

/-- C4 on a two-record list: fewer than 4 records, all of them in each rail. -/
theorem rail_length_witness :
    featuredRail [g4, g3] = [g4, g3] ∧ (trendingRail [g4, g3]).Perm [g4, g3] ∧
      newRail [g4, g3] = [g3, g4] :=
  (rail_length [g4, g3]).2.2.2.1 (by decide)

/-- C5. In the trending rail every adjacent pair `(a, b)` has
`a.plays ≥ b.plays`; the rail together with the records left out (the sorted
copy from index 4 on) is a rearrangement of `F`; every record left out has
`plays` no greater than any record of the rail, the last one in particular.
Non-negativity of `plays` is not needed. -/
theorem trendingRail_descending (F : List GameRecord) :
    List.Chain' (fun a b => a.plays ≥ b.plays) (trendingRail F) ∧
    (trendingRail F ++ (sort byPlaysDesc F).drop 4).Perm F ∧
    (∀ x ∈ (sort byPlaysDesc F).drop 4, ∀ y ∈ trendingRail F, x.plays ≤ y.plays) ∧
    (∀ x ∈ (sort byPlaysDesc F).drop 4, ∀ l, (trendingRail F).getLast? = some l →
      x.plays ≤ l.plays) := by
  have hp := sort_byPlaysDesc_pairwise F
  have hrail : trendingRail F = (sort byPlaysDesc F).take 4 := by
    rw [trendingRail, slice_zero]
  have hout : ∀ x ∈ (sort byPlaysDesc F).drop 4, ∀ y ∈ trendingRail F, x.plays ≤ y.plays := by
    intro x hx y hy
    rw [hrail] at hy
    have h := hp
    rw [← List.take_append_drop 4 (sort byPlaysDesc F), List.pairwise_append] at h
    exact h.2.2 y hy x hx
  refine ⟨?_, ?_, hout, ?_⟩
  · rw [hrail]
    exact (hp.sublist (List.take_sublist 4 _)).chain'
  · rw [hrail, List.take_append_drop]
    exact sort_perm byPlaysDesc F
  · intro x hx l hl
    exact hout x hx l (List.mem_of_mem_getLast? hl)

/-- C6. The trending rail is stable: for every `plays` value, the records of
the rail with that value are an initial stretch of the records of `F` with
that value, in the order they have in `F` (so a tie group cut by the limit
keeps its earliest members); hence two records with equal `plays` that
stand in some order in the rail stand in that order in `F`. -/
theorem trendingRail_stable (F : List GameRecord) :
    (∀ p : Int, (trendingRail F).filter (fun g => decide (g.plays = p)) <+:
      F.filter (fun g => decide (g.plays = p))) ∧
    (∀ a b : GameRecord, a.plays = b.plays → List.Sublist [a, b] (trendingRail F) →
      List.Sublist [a, b] F) := by
  refine ⟨trendingRail_filter_initial F, ?_⟩
  intro a b hab h
  have h1 := pair_sublist_filter (fun g => decide (g.plays = a.plays)) _ a b h
    (by simp) (by simp [hab])
  exact (h1.trans (trendingRail_filter_initial F a.plays).sublist).trans (List.filter_sublist _)

/-- C6 on `tiedGames`, whose tie group of five is cut by the limit: the rail
is the leader and then the first three of the group, in the order of the
list. -/
theorem trendingRail_stable_witness :
    (trendingRail tiedGames).map (fun g => g.id) = ["g3", "g4", "g2", "g5"] ∧
      List.Sublist [g4, { g2 with plays := 5012 }] tiedGames :=
  ⟨by decide,
   (trendingRail_stable tiedGames).2 g4 { g2 with plays := 5012 } rfl (by decide)⟩

/-- C7. The new rail is the first 4 records of the reverse of `F`, that is
the last `min |F| 4` records of `F` from last to first; the featured rail is
the first `min |F| 4` records of `F`; for `|F| ≤ 4` the new rail is the
featured rail reversed. -/
theorem newRail_eq (F : List GameRecord) :
    newRail F = F.reverse.take 4 ∧
    newRail F = (F.drop (F.length - min F.length 4)).reverse ∧
    featuredRail F = F.take (min F.length 4) ∧
    (F.length ≤ 4 → newRail F = (featuredRail F).reverse) := by
  refine ⟨?_, ?_, ?_, ?_⟩
  · rw [newRail, slice_zero]
  · rw [newRail, slice_zero, List.take_reverse]
    congr 2
    omega
  · rw [featuredRail, slice_zero]
    rcases Nat.le_total F.length 4 with h | h
    · rw [Nat.min_eq_left h, List.take_of_length_le h, List.take_of_length_le (le_refl _)]
    · rw [Nat.min_eq_right h]
  · intro h
    rw [newRail, featuredRail, slice_zero, slice_zero, List.take_of_length_le h,
      List.take_of_length_le (by rw [List.length_reverse]; exact h)]

/-- C7 on a three-record list. -/
theorem newRail_eq_witness : newRail [g1, g2, g3] = (featuredRail [g1, g2, g3]).reverse :=
  (newRail_eq [g1, g2, g3]).2.2.2 (by decide)

/-! ## Viewport and detail view -/

/-- C8. With a window present, `isDesktop` is true exactly for an inner
width of at least 1024 (false at 1023, true at 1024), and for an open game
`GameDrawer` renders the dialog exactly when `isDesktop` is true and the
drawer otherwise. -/
theorem isDesktop_breakpoint (w : Int) (g : GameRecord) :
    (isDesktop (some ⟨w⟩) = true ↔ 1024 ≤ w) ∧
    (isDesktop (some ⟨w⟩) = false ↔ w < 1024) ∧
    isDesktop (some ⟨1023⟩) = false ∧ isDesktop (some ⟨1024⟩) = true ∧
    (GameDrawer (some ⟨w⟩) (some g) = some (DetailView.dialog g) ↔
      isDesktop (some ⟨w⟩) = true) ∧
    (GameDrawer (some ⟨w⟩) (some g) = some (DetailView.drawer g) ↔
      isDesktop (some ⟨w⟩) = false) := by
  refine ⟨?_, ?_, by decide, by decide, ?_, ?_⟩
  · simp [isDesktop]
  · simp [isDesktop]
  · cases h : isDesktop (some ⟨w⟩) <;> simp [GameDrawer, h]
  · cases h : isDesktop (some ⟨w⟩) <;> simp [GameDrawer, h]

/-! ## Selection -/

/-- C9. From the initial closed state, after any finite sequence of open and
close events the selection is closed when the sequence is empty or ends in
a close, and holds the game of the last open otherwise; in particular an
open replaces whatever was selected, a close on the closed state stays
closed, and open `g2`, open `g5`, close ends closed. -/
theorem runEvents_eq_selectionOfLast (events : List SelectionEvent) :
    runEvents events = selectionOfLast events.getLast? ∧
    (∀ (active : Selection) (g : GameRecord),
      dispatch active (SelectionEvent.openGame g) = some g) ∧
    dispatch none SelectionEvent.close = none ∧
    runEvents [SelectionEvent.openGame g2, SelectionEvent.openGame g5, SelectionEvent.close]
      = none := by
  refine ⟨?_, fun _ _ => rfl, rfl, rfl⟩
  rcases List.eq_nil_or_concat events with rfl | ⟨L, e, rfl⟩
  · rfl
  · rw [List.concat_eq_append, List.getLast?_concat]
    cases e with
    | openGame g => exact runEvents_append_openGame L g
    | close => exact runEvents_append_close L

/-! ## The sample catalog -/

/-- C10. On the six records of `GAMES` with category "all" and the empty
query the filtered list is `GAMES`, and its trending rail is
`g3, g1, g6, g2` with plays 23105, 12840, 11002, 9021. -/
theorem trendingRail_GAMES (U : UnicodeCaseData) :
    filtered U GAMES "" "all" = GAMES ∧
    trendingRail (filtered U GAMES "" "all") = [g3, g1, g6, g2] ∧
    (trendingRail (filtered U GAMES "" "all")).map (fun g => g.id)
      = ["g3", "g1", "g6", "g2"] ∧
    (trendingRail (filtered U GAMES "" "all")).map (fun g => g.plays)
      = [23105, 12840, 11002, 9021] := by
  rw [filtered_all_empty U GAMES]
  exact ⟨rfl, by decide, by decide, by decide⟩

end GameCenter
